import Mathlib

/-!
Verification of the fnorm filename-normalization engine.

The Rust sources are shallowly embedded: strings are `List Char` (a Rust
`String` is a sequence of Unicode scalar values, exactly Lean's `Char`),
`BTreeMap` tables are association lists with unique keys, and the
filesystem is an explicit state threaded through the rename protocol.
-/

namespace Fnorm

/-- Models Rust `char::is_whitespace` (the Unicode White_Space property):
the exact finite set of White_Space code points. -/
def wsList : List Char :=
  ['\t', '\n', '\u000B', '\u000C', '\r', ' ', '\u0085', '\u00A0',
   '\u1680', '\u2000', '\u2001', '\u2002', '\u2003', '\u2004', '\u2005',
   '\u2006', '\u2007', '\u2008', '\u2009', '\u200A', '\u2028', '\u2029',
   '\u202F', '\u205F', '\u3000']

def rustIsWhitespace (c : Char) : Bool := wsList.contains c

/-- Key/value lookup in an association table (models `BTreeMap::get` for
tables whose keys are unique). -/
def lookupTable : List (Char × List Char) → Char → Option (List Char)
  | [], _ => none
  | (k, v) :: rest, c => if c = k then some v else lookupTable rest c

/-- Models Rust `char::to_lowercase` (and, mapped over a string,
`str::to_lowercase`): the Unicode lowercase mapping, restricted to a finite
table of the code points exercised in this development; a character without
an entry maps to itself.  (The final-sigma context rule of
`str::to_lowercase` is not modelled; both sigma forms are already
lowercase, so every property proved here is insensitive to it.) -/
def lowerTable : List (Char × List Char) :=
  [('A', ['a']), ('B', ['b']), ('C', ['c']), ('D', ['d']), ('E', ['e']),
   ('F', ['f']), ('G', ['g']), ('H', ['h']), ('I', ['i']), ('J', ['j']),
   ('K', ['k']), ('L', ['l']), ('M', ['m']), ('N', ['n']), ('O', ['o']),
   ('P', ['p']), ('Q', ['q']), ('R', ['r']), ('S', ['s']), ('T', ['t']),
   ('U', ['u']), ('V', ['v']), ('W', ['w']), ('X', ['x']), ('Y', ['y']),
   ('Z', ['z']),
   ('À', ['à']), ('Á', ['á']), ('Â', ['â']), ('Ä', ['ä']), ('Ã', ['ã']),
   ('Å', ['å']), ('É', ['é']), ('È', ['è']), ('Ê', ['ê']), ('Ë', ['ë']),
   ('Í', ['í']), ('Ó', ['ó']), ('Ö', ['ö']), ('Ø', ['ø']), ('Ú', ['ú']),
   ('Ü', ['ü']), ('Ñ', ['ñ']), ('Ç', ['ç']),
   ('İ', ['i', '\u0307']), ('Σ', ['σ'])]

def charToLower (c : Char) : List Char := (lookupTable lowerTable c).getD [c]

/-- `str::to_lowercase` over the `List Char` string model. -/
def strLower (l : List Char) : List Char := l.flatMap charToLower

/-- Rust `str::trim`: remove leading and trailing Unicode whitespace. -/
def trimWs (l : List Char) : List Char :=
  ((l.dropWhile rustIsWhitespace).reverse.dropWhile rustIsWhitespace).reverse

/-- Rust `str::trim_matches('.')`: remove leading and trailing dots. -/
def trimDots (l : List Char) : List Char :=
  ((l.dropWhile (fun c => c == '.')).reverse.dropWhile (fun c => c == '.')).reverse

/-- Index of the last `'.'` in the list, if any (models `str::rfind('.')`;
byte and character indices agree because `'.'` is ASCII and slicing happens
at its boundaries). -/
def lastDotIdx : List Char → Option Nat
  | [] => none
  | c :: cs =>
    match lastDotIdx cs with
    | some i => some (i + 1)
    | none => if c = '.' then some 0 else none

/-- `split_extension` of src/normalize.rs: split a filename into base name
and extension, the extension excluding the dot. -/
def split_extension (filename : List Char) : List Char × List Char :=
  match lastDotIdx filename with
  | none => (filename, [])
  | some dotPos =>
    if dotPos = 0 then
      ([], filename.drop 1)
    else if dotPos = filename.length - 1 then
      (filename.take dotPos, [])
    else
      (filename.take dotPos, filename.drop (dotPos + 1))

/-- `NormalizationConfig` of src/normalize.rs. -/
structure NormalizationConfig where
  special_tokens : List (Char × List Char)
  transliterations : List (Char × List Char)
  lowercase : Bool
  lowercase_extension : Bool

/-- `NormalizationConfig::default()` of src/normalize.rs. -/
def defaultConfig : NormalizationConfig where
  special_tokens :=
    [('/', "-or-".data), ('&', "-and-".data), ('@', "-at-".data),
     ('%', "-percent-".data)]
  transliterations :=
    [('á', ['a']), ('à', ['a']), ('â', ['a']), ('ä', ['a']), ('ã', ['a']),
     ('å', ['a']), ('é', ['e']), ('è', ['e']), ('ê', ['e']), ('ë', ['e']),
     ('í', ['i']), ('ì', ['i']), ('î', ['i']), ('ï', ['i']), ('ó', ['o']),
     ('ò', ['o']), ('ô', ['o']), ('ö', ['o']), ('õ', ['o']), ('ø', ['o']),
     ('ú', ['u']), ('ù', ['u']), ('û', ['u']), ('ü', ['u']), ('ñ', ['n']),
     ('ç', ['c']), ('æ', "ae".data), ('œ', "oe".data), ('ß', "ss".data)]
  lowercase := true
  lowercase_extension := true

/-- The fixed whitespace/dash/curly-quote set of the `match` arm in
`normalize_base` (space, en dash, em dash, curly single and double quotes). -/
def dashQuoteSet : List Char :=
  [' ', '\u2013', '\u2014', '\u2018', '\u2019', '\u201C', '\u201D']

/-- The per-character classification applied to each case-folded character
inside the loop of `normalize_base`: special-token lookup, then
transliteration lookup, then the fixed dash/quote set, then the
allowed-character test, else a hyphen. -/
def mapCharRules (config : NormalizationConfig) (lower : Char) : List Char :=
  match lookupTable config.special_tokens lower with
  | some replacement => replacement
  | none =>
    match lookupTable config.transliterations lower with
    | some replacement => replacement
    | none =>
      if lower ∈ dashQuoteSet then ['-']
      else
        let isAllowedLetter := if config.lowercase then lower.isLower else lower.isAlpha
        if isAllowedLetter || lower.isDigit || lower == '-' || lower == '_'
            || lower == '.' then
          [lower]
        else
          ['-']

/-- The loop body of `cleanup_hyphens`, with the `prev_was_hyphen` flag
made an explicit argument. -/
def cleanupHyphensAux : Bool → List Char → List Char
  | _, [] => []
  | prevWasHyphen, c :: rest =>
    if c = '-' then
      if prevWasHyphen then cleanupHyphensAux true rest
      else c :: cleanupHyphensAux true rest
    else
      c :: cleanupHyphensAux false rest

/-- `cleanup_hyphens` of src/normalize.rs: collapse consecutive hyphens. -/
def cleanup_hyphens (text : List Char) : List Char := cleanupHyphensAux false text

/-- The character pipeline of `normalize_base`: iterate the case-folded
expansions of each character (when `lowercase` is set) and classify each
resulting character. -/
def processChars (config : NormalizationConfig) (l : List Char) : List Char :=
  l.flatMap fun ch =>
    (if config.lowercase then charToLower ch else [ch]).flatMap (mapCharRules config)

/-- `normalize_base` of src/normalize.rs. -/
def normalize_base (base_name : List Char) (config : NormalizationConfig) : List Char :=
  let trimmed := trimDots (trimWs base_name)
  if trimmed = [] then []
  else
    let processed := processChars config trimmed
    (cleanup_hyphens processed).dropWhile (fun c => c == '-')

/-- `normalize_with_config` of src/normalize.rs, over the `List Char`
string model. -/
def normalize_with_config (filename : List Char) (config : NormalizationConfig) :
    List Char :=
  if filename = [] then []
  else
    let split := split_extension (trimWs filename)
    let base := normalize_base split.1 config
    let normalizedExtension :=
      if config.lowercase_extension then strLower split.2 else split.2
    if normalizedExtension = [] then base
    else base ++ '.' :: normalizedExtension

/-- `normalize` of src/normalize.rs: the default configuration. -/
def normalizeL (filename : List Char) : List Char :=
  normalize_with_config filename defaultConfig

/-- `normalize` at the `String` level. -/
def normalize (filename : String) : String := ⟨normalizeL filename.data⟩

/-- `str::to_lowercase` at the `String` level (used by `process_file` for
the case-only comparison). -/
def strLowerStr (s : String) : String := ⟨strLower s.data⟩

/-! ## The filesystem model and the safe-rename protocol (src/lib.rs)

A path is its parent directory (opaque) plus the result of
`Path::file_name()`, which is `none` for paths without a final normal
component (such as the filesystem root or a path ending in `..`).  The
filesystem is a list of entries, each a path with an opaque content tag;
`std::fs::rename` follows POSIX semantics: it fails when the source does
not exist or when the injected error oracle says the OS call fails, and
otherwise moves the content, silently replacing any entry at the
destination.  Every `rename` and `exists` call is recorded in a trace. -/

/-- A filesystem path: an opaque parent directory and the
`Path::file_name()` component. -/
structure RPath where
  dir : String
  fname : Option String
deriving DecidableEq, Repr

/-- `Path::set_file_name`. -/
def RPath.setFileName (p : RPath) (name : String) : RPath := ⟨p.dir, some name⟩

/-- A filesystem state: the entries (path plus opaque content tag) and an
oracle saying which OS `rename` calls fail, with the `io::Error` text. -/
structure Fs where
  entries : List (RPath × Nat)
  renameFails : RPath → RPath → Option String

def Fs.pathExists (fs : Fs) (p : RPath) : Bool := fs.entries.any fun e => e.1 = p

def Fs.content (fs : Fs) (p : RPath) : Option Nat :=
  (fs.entries.find? fun e => e.1 = p).map fun e => e.2

/-- `std::fs::rename`: on success the source entry now lives at the
destination, replacing whatever was there. -/
def Fs.rename (fs : Fs) (src dst : RPath) : Except String Fs :=
  match fs.renameFails src dst with
  | some e => .error e
  | none =>
    match fs.content src with
    | none => .error "NoSuchFile"
    | some c =>
      .ok { fs with
              entries := (dst, c) :: fs.entries.filter fun e => e.1 ≠ src ∧ e.1 ≠ dst }

/-- One observable filesystem operation of the protocol. -/
inductive FsOp where
  | statCall (p : RPath) (ok : Bool)
  | existsCheck (p : RPath) (result : Bool)
  | renameCall (src dst : RPath) (ok : Bool)
deriving DecidableEq, Repr

/-- The errors of src/error.rs, with `io::Error` causes as opaque text. -/
inductive FnormError where
  | FileNotFound (path : RPath) (source : String)
  | TargetExists (path : RPath)
  | RenameError (fromPath toPath : RPath) (source : String)
deriving DecidableEq, Repr

/-- `rename_case_only` of src/lib.rs: the two-step rename through a
temporary sibling named `old_name + ".fnorm-tmp"`, with best-effort
rollback when the second step fails.  Returns the outcome, the final
filesystem and the trace of attempted renames. -/
def rename_case_only (fs : Fs) (source target : RPath) (old_name : String) :
    Except FnormError Unit × Fs × List FsOp :=
  let temp_path := source.setFileName (old_name ++ ".fnorm-tmp")
  match fs.rename source temp_path with
  | .error e =>
    (.error (.RenameError source temp_path e), fs,
     [.renameCall source temp_path false])
  | .ok fs1 =>
    match fs1.rename temp_path target with
    | .ok fs2 =>
      (.ok (), fs2,
       [.renameCall source temp_path true, .renameCall temp_path target true])
    | .error e =>
      match fs1.rename temp_path source with
      | .ok fs3 =>
        (.error (.RenameError temp_path target e), fs3,
         [.renameCall source temp_path true, .renameCall temp_path target false,
          .renameCall temp_path source true])
      | .error _ =>
        (.error (.RenameError temp_path target e), fs1,
         [.renameCall source temp_path true, .renameCall temp_path target false,
          .renameCall temp_path source false])

/-- `process_file` of src/lib.rs: stat the path, take its file name,
normalize it, then no-op / dry-run report / case-only two-step rename /
checked regular rename. -/
def process_file (fs : Fs) (path : RPath) (dry_run : Bool) :
    Except FnormError Unit × Fs × List FsOp :=
  if ¬fs.pathExists path then
    (.error (.FileNotFound path "NoSuchFile"), fs, [.statCall path false])
  else
    match path.fname with
    | none =>
      (.error (.FileNotFound path "invalid filename"), fs, [.statCall path true])
    | some filename =>
      let normalized := normalize filename
      if filename = normalized then (.ok (), fs, [.statCall path true])
      else if dry_run then (.ok (), fs, [.statCall path true])
      else
        let target_path := path.setFileName normalized
        if strLowerStr filename = strLowerStr normalized then
          let r := rename_case_only fs path target_path filename
          (r.1, r.2.1, .statCall path true :: r.2.2)
        else if fs.pathExists target_path then
          (.error (.TargetExists target_path), fs,
           [.statCall path true, .existsCheck target_path true])
        else
          match fs.rename path target_path with
          | .error e =>
            (.error (.RenameError path target_path e), fs,
             [.statCall path true, .existsCheck target_path false,
              .renameCall path target_path false])
          | .ok fs2 =>
            (.ok (), fs2,
             [.statCall path true, .existsCheck target_path false,
              .renameCall path target_path true])

/-- The loop of `run` in src/lib.rs: process every file in order,
collecting one `(path, error)` entry per failing path and continuing with
the rest. -/
def runAux (fs : Fs) : List RPath → Bool →
    List (RPath × FnormError) × Fs × List FsOp
  | [], _ => ([], fs, [])
  | file :: rest, dry_run =>
    let r := process_file fs file dry_run
    let rec_ := runAux r.2.1 rest dry_run
    match r.1 with
    | .ok () => (rec_.1, rec_.2.1, r.2.2 ++ rec_.2.2)
    | .error e => ((file, e) :: rec_.1, rec_.2.1, r.2.2 ++ rec_.2.2)

/-- `run` of src/lib.rs: `Ok` iff no path failed, otherwise the collected
per-path error entries (the `RunError.entries` field). -/
def run (fs : Fs) (files : List RPath) (dry_run : Bool) :
    Except (List (RPath × FnormError)) Unit × Fs × List FsOp :=
  let r := runAux fs files dry_run
  (if r.1 = [] then .ok () else .error r.1, r.2.1, r.2.2)

/-! ## Predicates used by the statements -/

/-- Two consecutive hyphens occur nowhere in the list. -/
def noDoubleHyphen : List Char → Bool
  | a :: b :: rest => !(a == '-' && b == '-') && noDoubleHyphen (b :: rest)
  | _ => true

/-- The characters `normalize_base` may emit under the default
configuration: lowercase ASCII letters, ASCII digits, hyphen, underscore
and dot. -/
def slugChar (c : Char) : Bool :=
  c.isLower || c.isDigit || c == '-' || c == '_' || c == '.'

/-- A normalized name on which a second `normalize` pass is stable: the
base part that a re-split would see neither starts nor ends with a dot,
and the name does not end with a dot. -/
def stableName (o : List Char) : Prop :=
  (split_extension o).1.head? ≠ some '.' ∧
  (split_extension o).1.getLast? ≠ some '.' ∧
  o.getLast? ≠ some '.'

instance stableNameDecidable (o : List Char) : Decidable (stableName o) := by
  unfold stableName
  infer_instance

/-- No rename call occurs in a trace. -/
def noRenames (tr : List FsOp) : Prop :=
  ∀ src dst ok, FsOp.renameCall src dst ok ∉ tr

instance noRenamesDecidable (tr : List FsOp) : Decidable (noRenames tr) := by
  unfold noRenames
  cases tr
  case nil =>
    exact .isTrue (by intro _ _ _ h; exact (List.not_mem_nil _ h))
  case cons a rest =>
    exact decidable_of_iff
      ((a :: rest).all fun op =>
        match op with
        | .renameCall _ _ _ => false
        | _ => true)
      (by
        simp only [List.all_eq_true]
        constructor
        · intro h src dst ok hmem
          have := h _ hmem
          simp at this
        · intro h op hmem
          cases op with
          | renameCall s d k => exact absurd hmem (h s d k)
          | statCall p k => simp
          | existsCheck p r => simp)

/-! ## Concrete fixtures used by witnesses and counterexamples -/

/-- An error oracle under which every OS rename call succeeds. -/
def noFailOracle : RPath → RPath → Option String := fun _ _ => none

/-- An error oracle under which the OS rename call into
`d/readme.txt` fails (used to exercise the rollback path of the
case-only two-step rename). -/
def failIntoTargetOracle : RPath → RPath → Option String := fun _ dst =>
  if dst = ⟨"d", some "readme.txt"⟩ then some "EACCES" else none

/-- Fixture: directory `d` holding both `README.TXT` (content 1) and
`readme.txt` (content 2), all renames succeeding — a case-sensitive
filesystem where the case-only branch silently replaces the target. -/
def fsCaseTwo : Fs :=
  ⟨[(⟨"d", some "README.TXT"⟩, 1), (⟨"d", some "readme.txt"⟩, 2)], noFailOracle⟩

/-- Fixture: directory `d` holding only `README.TXT`. -/
def fsReadme : Fs := ⟨[(⟨"d", some "README.TXT"⟩, 1)], noFailOracle⟩

/-- Fixture: directory `d` holding `Source File.txt` and its normalized
sibling `source-file.txt`. -/
def fsConflict : Fs :=
  ⟨[(⟨"d", some "Source File.txt"⟩, 1), (⟨"d", some "source-file.txt"⟩, 2)],
   noFailOracle⟩

/-- Fixture: a filesystem whose only entry is a path with no file-name
component (the filesystem root). -/
def fsRoot : Fs := ⟨[(⟨"", none⟩, 1)], noFailOracle⟩

/-- Fixture: directory `d` holding only `README.TXT`, with the rename into
`d/readme.txt` failing. -/
def fsRollback : Fs := ⟨[(⟨"d", some "README.TXT"⟩, 1)], failIntoTargetOracle⟩

/-! ## Generic list lemmas -/

theorem head?_dropWhile_not {p : Char → Bool} {l : List Char} {c : Char}
    (h : (l.dropWhile p).head? = some c) : p c = false := by
  induction l with
  | nil => simp [List.dropWhile] at h
  | cons a rest ih =>
    by_cases hp : p a
    · rw [List.dropWhile_cons_of_pos hp] at h
      exact ih h
    · rw [List.dropWhile_cons_of_neg hp] at h
      simp at h
      rw [← h]
      exact Bool.of_not_eq_true hp

theorem dropWhile_eq_self_of_head {p : Char → Bool} {l : List Char}
    (h : ∀ c, l.head? = some c → p c = false) : l.dropWhile p = l := by
  cases l with
  | nil => rfl
  | cons a rest =>
    have := h a (by rfl)
    simp [List.dropWhile, this]

theorem dropWhile_eq_self_of_all {p : Char → Bool} {l : List Char}
    (h : ∀ c ∈ l, p c = false) : l.dropWhile p = l := by
  cases l with
  | nil => rfl
  | cons a rest =>
    exact dropWhile_eq_self_of_head fun c hc => by
      simp at hc
      exact hc ▸ h a (by simp)

theorem mem_dropWhile {p : Char → Bool} {l : List Char} {c : Char}
    (h : c ∈ l.dropWhile p) : c ∈ l :=
  (List.dropWhile_sublist p).mem h

theorem getLast?_suffix {l s : List Char} (hs : s <:+ l) (hne : s ≠ []) :
    s.getLast? = l.getLast? := by
  obtain ⟨t, rfl⟩ := hs
  rw [List.getLast?_append]
  cases hgl : s.getLast? with
  | none => exact absurd (List.getLast?_eq_none_iff.mp hgl) hne
  | some c => rfl

theorem head?_take {l : List Char} {i : Nat} (hi : 0 < i) :
    (l.take i).head? = l.head? := by
  cases l with
  | nil => simp
  | cons a rest =>
    cases i with
    | zero => exact absurd hi (by simp)
    | succ n => simp

theorem drop_ne_nil_of_lt {l : List Char} {i : Nat} (hi : i < l.length) :
    l.drop i ≠ [] := by
  intro h
  have := List.drop_eq_nil_iff.mp h
  omega

/-! ## Lookup-table and character lemmas -/

theorem lookupTable_mem {t : List (Char × List Char)} {c : Char} {v : List Char}
    (h : lookupTable t c = some v) : (c, v) ∈ t := by
  induction t with
  | nil => simp [lookupTable] at h
  | cons kv rest ih =>
    obtain ⟨k, w⟩ := kv
    by_cases hk : c = k
    · subst hk
      simp [lookupTable] at h
      simp [h]
    · rw [lookupTable, if_neg hk] at h
      exact List.mem_cons_of_mem _ (ih h)

theorem charToLower_of_none {c : Char} (h : lookupTable lowerTable c = none) :
    charToLower c = [c] := by
  rw [charToLower, h]
  rfl

theorem charToLower_of_some {c : Char} {v : List Char}
    (h : lookupTable lowerTable c = some v) : charToLower c = v := by
  rw [charToLower, h]
  rfl

theorem lowerTable_values_not_keys :
    ∀ p ∈ lowerTable, ∀ d ∈ p.2, lookupTable lowerTable d = none := by decide

theorem lowerTable_values_ne_nil : ∀ p ∈ lowerTable, p.2 ≠ [] := by decide

theorem lowerTable_values_not_dot :
    ∀ p ∈ lowerTable, ∀ d ∈ p.2, (d = '.' → False) ∧ rustIsWhitespace d = false := by
  decide

theorem charToLower_ne_nil (c : Char) : charToLower c ≠ [] := by
  cases h : lookupTable lowerTable c with
  | none => rw [charToLower_of_none h]; simp
  | some v =>
    rw [charToLower_of_some h]
    exact lowerTable_values_ne_nil _ (lookupTable_mem h)

theorem charToLower_fixed {c d : Char} (h : d ∈ charToLower c) :
    charToLower d = [d] := by
  cases hc : lookupTable lowerTable c with
  | none =>
    rw [charToLower_of_none hc] at h
    simp at h
    subst h
    exact charToLower_of_none hc
  | some v =>
    rw [charToLower_of_some hc] at h
    exact charToLower_of_none
      (lowerTable_values_not_keys _ (lookupTable_mem hc) _ h)

theorem charToLower_no_dot {c d : Char} (hc : c ≠ '.') (h : d ∈ charToLower c) :
    d ≠ '.' := by
  cases hl : lookupTable lowerTable c with
  | none =>
    rw [charToLower_of_none hl] at h
    simp at h
    exact h ▸ hc
  | some v =>
    rw [charToLower_of_some hl] at h
    exact (lowerTable_values_not_dot _ (lookupTable_mem hl) _ h).1

theorem charToLower_not_ws {c d : Char} (hc : rustIsWhitespace c = false)
    (h : d ∈ charToLower c) : rustIsWhitespace d = false := by
  cases hl : lookupTable lowerTable c with
  | none =>
    rw [charToLower_of_none hl] at h
    simp at h
    exact h ▸ hc
  | some v =>
    rw [charToLower_of_some hl] at h
    exact (lowerTable_values_not_dot _ (lookupTable_mem hl) _ h).2

theorem lowerTable_keys_not_slug : ∀ p ∈ lowerTable, slugChar p.1 = false := by
  decide

theorem charToLower_of_slug {c : Char} (h : slugChar c = true) :
    charToLower c = [c] := by
  cases hl : lookupTable lowerTable c with
  | none => exact charToLower_of_none hl
  | some v =>
    have := lowerTable_keys_not_slug _ (lookupTable_mem hl)
    simp only at this
    rw [h] at this
    exact absurd this (by simp)

theorem ws_not_slug : ∀ c ∈ wsList, slugChar c = false := by decide

theorem slug_not_ws {c : Char} (h : slugChar c = true) :
    rustIsWhitespace c = false := by
  cases hw : rustIsWhitespace c with
  | false => rfl
  | true =>
    have hmem : c ∈ wsList := by
      have := hw
      rw [rustIsWhitespace] at this
      exact List.mem_of_elem_eq_true this
    rw [ws_not_slug c hmem] at h
    exact absurd h (by simp)

/-! ## `cleanup_hyphens` lemmas -/

theorem noDD_cons_cons {a b : Char} {rest : List Char} :
    noDoubleHyphen (a :: b :: rest) =
      (!(a == '-' && b == '-') && noDoubleHyphen (b :: rest)) := rfl

theorem noDD_of_cons {c : Char} {l : List Char}
    (h : noDoubleHyphen (c :: l) = true) : noDoubleHyphen l = true := by
  cases l with
  | nil => rfl
  | cons b rest =>
    rw [noDD_cons_cons] at h
    exact (Bool.and_eq_true_iff.mp h).2

theorem noDD_cons_of {c : Char} {l : List Char} (hl : noDoubleHyphen l = true)
    (h : c = '-' → l.head? ≠ some '-') : noDoubleHyphen (c :: l) = true := by
  cases l with
  | nil => rfl
  | cons b rest =>
    rw [noDD_cons_cons, Bool.and_eq_true_iff]
    refine ⟨?_, hl⟩
    by_cases hc : c = '-'
    · have hb : b ≠ '-' := fun hb => h hc (by rw [hb]; rfl)
      simp [hb]
    · simp [hc]

theorem cleanupAux_true_head :
    ∀ l : List Char, (cleanupHyphensAux true l).head? ≠ some '-' := by
  intro l
  induction l with
  | nil => simp [cleanupHyphensAux]
  | cons c rest ih =>
    by_cases hc : c = '-'
    · rw [cleanupHyphensAux, if_pos hc, if_pos rfl]
      exact ih
    · rw [cleanupHyphensAux, if_neg hc]
      intro h
      simp at h
      exact hc h

theorem cleanupAux_noDD :
    ∀ (l : List Char) (b : Bool), noDoubleHyphen (cleanupHyphensAux b l) = true := by
  intro l
  induction l with
  | nil => intro b; rfl
  | cons c rest ih =>
    intro b
    by_cases hc : c = '-'
    · subst hc
      cases b with
      | true =>
        rw [cleanupHyphensAux, if_pos rfl, if_pos rfl]
        exact ih true
      | false =>
        rw [cleanupHyphensAux, if_pos rfl, if_neg (by simp)]
        exact noDD_cons_of (ih true) fun _ => cleanupAux_true_head rest
    · rw [cleanupHyphensAux, if_neg hc]
      exact noDD_cons_of (ih false) fun h => absurd h hc

theorem cleanupAux_mem {l : List Char} {b : Bool} {c : Char}
    (h : c ∈ cleanupHyphensAux b l) : c ∈ l := by
  induction l generalizing b with
  | nil => simp [cleanupHyphensAux] at h
  | cons a rest ih =>
    by_cases ha : a = '-'
    · rw [cleanupHyphensAux, if_pos ha] at h
      cases b with
      | true => exact List.mem_cons_of_mem _ (ih h)
      | false =>
        rw [if_neg (by simp)] at h
        rcases List.mem_cons.mp h with h | h
        · simp [h]
        · exact List.mem_cons_of_mem _ (ih h)
    · rw [cleanupHyphensAux, if_neg ha] at h
      rcases List.mem_cons.mp h with h | h
      · simp [h]
      · exact List.mem_cons_of_mem _ (ih h)

theorem cleanupAux_id :
    ∀ l : List Char, noDoubleHyphen l = true →
      cleanupHyphensAux false l = l ∧
      (l.head? ≠ some '-' → cleanupHyphensAux true l = l) := by
  intro l
  induction l with
  | nil => exact fun _ => ⟨rfl, fun _ => rfl⟩
  | cons c rest ih =>
    intro h
    have hrest := noDD_of_cons h
    constructor
    · by_cases hc : c = '-'
      · subst hc
        rw [cleanupHyphensAux, if_pos rfl, if_neg (by simp)]
        have hhd : rest.head? ≠ some '-' := by
          cases rest with
          | nil => simp
          | cons b rs =>
            rw [noDD_cons_cons] at h
            have := (Bool.and_eq_true_iff.mp h).1
            simp at this
            simpa using this
        rw [(ih hrest).2 hhd]
      · rw [cleanupHyphensAux, if_neg hc, (ih hrest).1]
    · intro hhd
      have hc : c ≠ '-' := fun hc => hhd (by rw [hc]; rfl)
      rw [cleanupHyphensAux, if_neg hc, (ih hrest).1]

theorem noDD_append_left {xs ys : List Char}
    (h : noDoubleHyphen (xs ++ ys) = true) : noDoubleHyphen xs = true := by
  induction xs with
  | nil => rfl
  | cons c rest ih =>
    cases rest with
    | nil => rfl
    | cons b rs =>
      rw [List.cons_append, List.cons_append, noDD_cons_cons] at h
      rw [noDD_cons_cons]
      obtain ⟨h1, h2⟩ := Bool.and_eq_true_iff.mp h
      rw [h1, ih h2]
      rfl

theorem noDD_append_right {xs ys : List Char}
    (h : noDoubleHyphen (xs ++ ys) = true) : noDoubleHyphen ys = true := by
  induction xs with
  | nil => exact h
  | cons c rest ih => exact ih (noDD_of_cons (by rwa [List.cons_append] at h))

theorem noDD_take {l : List Char} {i : Nat} (h : noDoubleHyphen l = true) :
    noDoubleHyphen (l.take i) = true :=
  noDD_append_left (by rwa [List.take_append_drop])

theorem noDD_drop {l : List Char} {i : Nat} (h : noDoubleHyphen l = true) :
    noDoubleHyphen (l.drop i) = true :=
  noDD_append_right (by rwa [List.take_append_drop])

theorem noDD_dropWhile {p : Char → Bool} {l : List Char}
    (h : noDoubleHyphen l = true) : noDoubleHyphen (l.dropWhile p) = true := by
  obtain ⟨t, ht⟩ := (List.dropWhile_suffix p (l := l))
  exact noDD_append_right (by rwa [ht])

/-! ## `trimWs` and `trimDots` lemmas -/

theorem trim_generic_eq_self {p : Char → Bool} {l : List Char}
    (hh : ∀ c, l.head? = some c → p c = false)
    (hl : ∀ c, l.getLast? = some c → p c = false) :
    ((l.dropWhile p).reverse.dropWhile p).reverse = l := by
  rw [dropWhile_eq_self_of_head hh]
  rw [dropWhile_eq_self_of_head (fun c hc => hl c (by rwa [List.head?_reverse] at hc))]
  exact List.reverse_reverse l

theorem trimWs_eq_self {l : List Char}
    (hh : ∀ c, l.head? = some c → rustIsWhitespace c = false)
    (hl : ∀ c, l.getLast? = some c → rustIsWhitespace c = false) :
    trimWs l = l :=
  trim_generic_eq_self hh hl

theorem trimWs_eq_self_of_all {l : List Char}
    (h : ∀ c ∈ l, rustIsWhitespace c = false) : trimWs l = l :=
  trimWs_eq_self
    (fun c hc => h c (by cases l with | nil => simp at hc | cons a r => simp at hc; simp [hc]))
    (fun c hc => h c (by
      have : c ∈ l.reverse := by
        rw [← List.head?_reverse] at hc
        cases hr : l.reverse with
        | nil => rw [hr] at hc; simp at hc
        | cons a r => rw [hr] at hc; simp at hc; simp [hr, hc]
      simpa using this))

theorem trimDots_eq_self {l : List Char}
    (hh : l.head? ≠ some '.') (hl : l.getLast? ≠ some '.') :
    trimDots l = l := by
  refine trim_generic_eq_self (fun c hc => ?_) (fun c hc => ?_)
  · by_cases h : c = '.'
    · exact absurd (h ▸ hc) hh
    · simp [h]
  · by_cases h : c = '.'
    · exact absurd (h ▸ hc) hl
    · simp [h]

theorem trimWs_getLast_not_ws {l : List Char} {c : Char}
    (h : (trimWs l).getLast? = some c) : rustIsWhitespace c = false := by
  rw [trimWs, List.getLast?_reverse] at h
  exact head?_dropWhile_not h

theorem trimWs_head_not_ws {l : List Char} {c : Char}
    (h : (trimWs l).head? = some c) : rustIsWhitespace c = false := by
  rw [trimWs, List.head?_reverse] at h
  set y := (l.dropWhile rustIsWhitespace).reverse with hy
  have hsf : y.dropWhile rustIsWhitespace <:+ y := List.dropWhile_suffix _
  have hne : y.dropWhile rustIsWhitespace ≠ [] := by
    intro hnil
    rw [hnil] at h
    simp at h
  rw [getLast?_suffix hsf hne] at h
  rw [hy, List.getLast?_reverse] at h
  exact head?_dropWhile_not h

/-! ## `strLower` lemmas -/

theorem strLower_fixed_of {m : List Char} (h : ∀ c ∈ m, charToLower c = [c]) :
    strLower m = m := by
  induction m with
  | nil => rfl
  | cons c rest ih =>
    rw [strLower, List.flatMap_cons, h c (by simp),
      ← strLower, ih fun d hd => h d (List.mem_cons_of_mem _ hd)]
    rfl

theorem strLower_mem_fixed {m : List Char} {d : Char} (h : d ∈ strLower m) :
    charToLower d = [d] := by
  rw [strLower] at h
  obtain ⟨c, _, hd⟩ := List.mem_flatMap.mp h
  exact charToLower_fixed hd

theorem strLower_idem (m : List Char) : strLower (strLower m) = strLower m :=
  strLower_fixed_of fun _ hd => strLower_mem_fixed hd

theorem strLower_of_slug {m : List Char} (h : ∀ c ∈ m, slugChar c = true) :
    strLower m = m :=
  strLower_fixed_of fun c hc => charToLower_of_slug (h c hc)

theorem strLower_no_dot {m : List Char} (h : '.' ∉ m) : '.' ∉ strLower m := by
  intro hd
  rw [strLower] at hd
  obtain ⟨c, hc, hdc⟩ := List.mem_flatMap.mp hd
  exact charToLower_no_dot (fun hcc => h (hcc ▸ hc)) hdc rfl

theorem strLower_eq_nil_iff (m : List Char) : strLower m = [] ↔ m = [] := by
  constructor
  · intro h
    cases m with
    | nil => rfl
    | cons c rest =>
      rw [strLower, List.flatMap_cons] at h
      exact absurd (List.append_eq_nil.mp h).1 (charToLower_ne_nil c)
  · intro h; rw [h]; rfl

theorem getLast?_flatMap {f : Char → List Char} {l : List Char}
    (hf : ∀ c, f c ≠ []) {d : Char}
    (h : (l.flatMap f).getLast? = some d) :
    ∃ c, l.getLast? = some c ∧ d ∈ f c := by
  induction l with
  | nil => simp at h
  | cons c rest ih =>
    cases hr : rest with
    | nil =>
      rw [hr] at h
      simp only [List.flatMap_cons, List.flatMap_nil, List.append_nil] at h
      exact ⟨c, rfl, List.mem_of_mem_getLast? h⟩
    | cons b rs =>
      subst hr
      rw [List.flatMap_cons, List.getLast?_append] at h
      have hne : (b :: rs).flatMap f ≠ [] := by
        rw [List.flatMap_cons]
        intro hnil
        exact absurd (List.append_eq_nil.mp hnil).1 (hf b)
      cases hgl : ((b :: rs).flatMap f).getLast? with
      | none => exact absurd (List.getLast?_eq_none_iff.mp hgl) hne
      | some x =>
        rw [hgl] at h
        simp at h
        obtain ⟨e, he, hde⟩ := ih (h ▸ hgl)
        refine ⟨e, ?_, hde⟩
        rw [List.getLast?_cons_cons]
        exact he

theorem strLower_getLast_not_ws {m : List Char}
    (hm : ∀ c, m.getLast? = some c → rustIsWhitespace c = false) {d : Char}
    (h : (strLower m).getLast? = some d) : rustIsWhitespace d = false := by
  obtain ⟨c, hc, hdc⟩ := getLast?_flatMap charToLower_ne_nil h
  exact charToLower_not_ws (hm c hc) hdc

/-! ## `mapCharRules` and `processChars` lemmas (default configuration) -/

theorem special_keys_not_slug :
    ∀ p ∈ defaultConfig.special_tokens, slugChar p.1 = false := by decide

theorem translit_keys_not_slug :
    ∀ p ∈ defaultConfig.transliterations, slugChar p.1 = false := by decide

theorem dashQuote_not_slug : ∀ d ∈ dashQuoteSet, slugChar d = false := by decide

theorem special_values_slug :
    ∀ p ∈ defaultConfig.special_tokens, ∀ d ∈ p.2, slugChar d = true := by decide

theorem translit_values_slug :
    ∀ p ∈ defaultConfig.transliterations, ∀ d ∈ p.2, slugChar d = true := by decide

theorem lookup_none_of_not_slug_keys {t : List (Char × List Char)} {c : Char}
    (hk : ∀ p ∈ t, slugChar p.1 = false) (hc : slugChar c = true) :
    lookupTable t c = none := by
  cases hl : lookupTable t c with
  | none => rfl
  | some v =>
    have := hk _ (lookupTable_mem hl)
    simp only at this
    rw [hc] at this
    exact absurd this (by simp)

theorem mapCharRules_default_id {c : Char} (h : slugChar c = true) :
    mapCharRules defaultConfig c = [c] := by
  rw [mapCharRules,
    lookup_none_of_not_slug_keys special_keys_not_slug h,
    lookup_none_of_not_slug_keys translit_keys_not_slug h]
  have hnd : c ∉ dashQuoteSet := fun hm => by
    rw [dashQuote_not_slug c hm] at h
    exact absurd h (by simp)
  rw [if_neg hnd]
  have hcond :
      ((if defaultConfig.lowercase then c.isLower else c.isAlpha) || c.isDigit ||
        c == '-' || c == '_' || c == '.') = true := by
    show ((if true then c.isLower else c.isAlpha) || c.isDigit ||
        c == '-' || c == '_' || c == '.') = true
    rw [if_pos rfl]
    exact h
  simp only [hcond, if_pos]

theorem mapCharRules_default_slug_out {c d : Char}
    (h : d ∈ mapCharRules defaultConfig c) : slugChar d = true := by
  rw [mapCharRules] at h
  cases h1 : lookupTable defaultConfig.special_tokens c with
  | some v =>
    rw [h1] at h
    exact special_values_slug _ (lookupTable_mem h1) _ h
  | none =>
    rw [h1] at h
    cases h2 : lookupTable defaultConfig.transliterations c with
    | some v =>
      rw [h2] at h
      exact translit_values_slug _ (lookupTable_mem h2) _ h
    | none =>
      rw [h2] at h
      by_cases h3 : c ∈ dashQuoteSet
      · rw [if_pos h3] at h
        simp at h
        subst h
        rfl
      · rw [if_neg h3] at h
        by_cases h4 :
            ((if defaultConfig.lowercase then c.isLower else c.isAlpha) || c.isDigit ||
              c == '-' || c == '_' || c == '.') = true
        · rw [if_pos h4] at h
          simp at h
          subst h
          have : defaultConfig.lowercase = true := rfl
          rw [this] at h4
          rw [if_pos rfl] at h4
          exact h4
        · rw [if_neg h4] at h
          simp at h
          subst h
          rfl

theorem processChars_default_slug {l : List Char} {d : Char}
    (h : d ∈ processChars defaultConfig l) : slugChar d = true := by
  rw [processChars] at h
  obtain ⟨c, _, hc⟩ := List.mem_flatMap.mp h
  obtain ⟨e, _, he⟩ := List.mem_flatMap.mp hc
  exact mapCharRules_default_slug_out he

theorem processChars_default_id {l : List Char} (h : ∀ c ∈ l, slugChar c = true) :
    processChars defaultConfig l = l := by
  induction l with
  | nil => rfl
  | cons c rest ih =>
    have hc := h c (by simp)
    rw [processChars, List.flatMap_cons]
    have hlc : (if defaultConfig.lowercase then charToLower c else [c]) = [c] := by
      show (if true then charToLower c else [c]) = [c]
      rw [if_pos rfl]
      exact charToLower_of_slug hc
    rw [hlc, List.flatMap_cons, List.flatMap_nil, List.append_nil,
      mapCharRules_default_id hc, ← processChars,
      ih fun d hd => h d (List.mem_cons_of_mem _ hd)]
    rfl

/-! ## `normalize_base` output structure -/

theorem normalize_base_mem_slug {b : List Char} {d : Char}
    (h : d ∈ normalize_base b defaultConfig) : slugChar d = true := by
  rw [normalize_base] at h
  by_cases ht : trimDots (trimWs b) = []
  · rw [if_pos ht] at h
    simp at h
  · rw [if_neg ht] at h
    exact processChars_default_slug
      (cleanupAux_mem (mem_dropWhile h))

theorem normalize_base_noDD (b : List Char) (config : NormalizationConfig) :
    noDoubleHyphen (normalize_base b config) = true := by
  rw [normalize_base]
  by_cases ht : trimDots (trimWs b) = []
  · rw [if_pos ht]
    rfl
  · rw [if_neg ht]
    exact noDD_dropWhile (cleanupAux_noDD _ false)

theorem normalize_base_head_ne_hyphen {b : List Char}
    {config : NormalizationConfig} {c : Char}
    (h : (normalize_base b config).head? = some c) : c ≠ '-' := by
  rw [normalize_base] at h
  by_cases ht : trimDots (trimWs b) = []
  · rw [if_pos ht] at h
    simp at h
  · rw [if_neg ht] at h
    have := head?_dropWhile_not h
    simp at this
    exact this

theorem normalize_base_fixed {m : List Char}
    (hslug : ∀ c ∈ m, slugChar c = true)
    (hdd : noDoubleHyphen m = true)
    (hh : m.head? ≠ some '-')
    (hhd : m.head? ≠ some '.')
    (hld : m.getLast? ≠ some '.') :
    normalize_base m defaultConfig = m := by
  have htw : trimWs m = m :=
    trimWs_eq_self_of_all fun c hc => slug_not_ws (hslug c hc)
  have htd : trimDots m = m := trimDots_eq_self hhd hld
  rw [normalize_base, htw, htd]
  cases hm : m with
  | nil => rw [if_pos rfl]
  | cons a rest =>
    rw [← hm, if_neg (by rw [hm]; simp)]
    rw [processChars_default_id hslug]
    show List.dropWhile (fun c => c == '-') (cleanup_hyphens m) = m
    rw [show cleanup_hyphens m = m from (cleanupAux_id m hdd).1]
    exact dropWhile_eq_self_of_head fun c hc => by
      have : c ≠ '-' := fun he => hh (he ▸ hc)
      simp [this]

/-! ## `lastDotIdx` and `split_extension` structure -/

theorem lastDotIdx_none_iff {l : List Char} : lastDotIdx l = none ↔ '.' ∉ l := by
  induction l with
  | nil => simp [lastDotIdx]
  | cons c rest ih =>
    rw [lastDotIdx]
    cases h : lastDotIdx rest with
    | some i =>
      simp only []
      constructor
      · intro hc; exact absurd hc (by simp)
      · intro hc
        exact absurd (ih.mpr fun hm => hc (List.mem_cons_of_mem _ hm)) (by rw [h]; simp)
    | none =>
      simp only []
      by_cases hc : c = '.'
      · rw [if_pos hc]
        constructor
        · intro hx; exact absurd hx (by simp)
        · intro hx; exact absurd (hc ▸ List.mem_cons_self c rest) hx
      · rw [if_neg hc]
        have hrest := ih.mp h
        constructor
        · intro _ hm
          rcases List.mem_cons.mp hm with hm | hm
          · exact hc hm.symm
          · exact hrest hm
        · intro _; rfl

theorem lastDotIdx_bound {l : List Char} {i : Nat} (h : lastDotIdx l = some i) :
    i < l.length := by
  induction l generalizing i with
  | nil => simp [lastDotIdx] at h
  | cons c rest ih =>
    rw [lastDotIdx] at h
    cases hr : lastDotIdx rest with
    | some j =>
      rw [hr] at h
      simp at h
      subst h
      have := ih hr
      simp
      omega
    | none =>
      rw [hr] at h
      by_cases hc : c = '.'
      · rw [if_pos hc] at h
        simp at h
        subst h
        simp
      · rw [if_neg hc] at h
        simp at h

theorem lastDotIdx_decomp {l : List Char} {i : Nat} (h : lastDotIdx l = some i) :
    l.take i ++ '.' :: l.drop (i + 1) = l ∧ '.' ∉ l.drop (i + 1) := by
  induction l generalizing i with
  | nil => simp [lastDotIdx] at h
  | cons c rest ih =>
    rw [lastDotIdx] at h
    cases hr : lastDotIdx rest with
    | some j =>
      rw [hr] at h
      simp at h
      subst h
      obtain ⟨h1, h2⟩ := ih hr
      constructor
      · rw [List.take_succ_cons, List.drop_succ_cons, List.cons_append, h1]
      · rw [List.drop_succ_cons]
        exact h2
    | none =>
      rw [hr] at h
      by_cases hc : c = '.'
      · rw [if_pos hc] at h
        simp at h
        subst h
        subst hc
        constructor
        · simp
        · simpa using lastDotIdx_none_iff.mp hr
      · rw [if_neg hc] at h
        simp at h

theorem lastDotIdx_append {pre post : List Char} (h : '.' ∉ post) :
    lastDotIdx (pre ++ '.' :: post) = some pre.length := by
  induction pre with
  | nil =>
    rw [List.nil_append, lastDotIdx, lastDotIdx_none_iff.mpr h, if_pos rfl]
    rfl
  | cons c rest ih =>
    rw [List.cons_append, lastDotIdx, ih]
    rfl

theorem split_extension_of_some {t : List Char} {i : Nat}
    (h : lastDotIdx t = some i) :
    split_extension t =
      if i = 0 then ([], t.drop 1)
      else if i = t.length - 1 then (t.take i, [])
      else (t.take i, t.drop (i + 1)) := by
  rw [split_extension, h]

theorem split_extension_of_none {t : List Char} (h : lastDotIdx t = none) :
    split_extension t = (t, []) := by
  rw [split_extension, h]

theorem split_extension_snd_no_dot (t : List Char) :
    '.' ∉ (split_extension t).2 := by
  cases h : lastDotIdx t with
  | none => rw [split_extension_of_none h]; simp
  | some i =>
    obtain ⟨hdec, hnd⟩ := lastDotIdx_decomp h
    rw [split_extension_of_some h]
    by_cases h0 : i = 0
    · rw [if_pos h0]
      subst h0
      simpa using hnd
    · rw [if_neg h0]
      by_cases h1 : i = t.length - 1
      · rw [if_pos h1]
        simp
      · rw [if_neg h1]
        exact hnd

theorem split_extension_snd_suffix (t : List Char) :
    (split_extension t).2 <:+ t := by
  cases h : lastDotIdx t with
  | none => rw [split_extension_of_none h]; exact ⟨t, by simp⟩
  | some i =>
    rw [split_extension_of_some h]
    by_cases h0 : i = 0
    · rw [if_pos h0]
      exact List.drop_suffix 1 t
    · rw [if_neg h0]
      by_cases h1 : i = t.length - 1
      · rw [if_pos h1]
        exact List.nil_suffix
      · rw [if_neg h1]
        exact List.drop_suffix (i + 1) t

/-! ## Unfolding `normalizeL` and the shape of its output -/

theorem strLower_nil : strLower [] = [] := rfl

theorem normalize_base_nil (config : NormalizationConfig) :
    normalize_base [] config = [] := rfl

theorem drop_length_succ_append (B E : List Char) (c : Char) :
    (B ++ c :: E).drop (B.length + 1) = E := by
  induction B with
  | nil => simp
  | cons b bs ih => simp [ih]

theorem normalizeL_eq {t : List Char} (ht : ¬ t = []) :
    normalizeL t =
      (if strLower (split_extension (trimWs t)).2 = []
       then normalize_base (split_extension (trimWs t)).1 defaultConfig
       else normalize_base (split_extension (trimWs t)).1 defaultConfig ++
         '.' :: strLower (split_extension (trimWs t)).2) := by
  rw [normalizeL, normalize_with_config, if_neg ht]
  rfl

/-- Every output of `normalizeL` is empty or splits into a slug base and a
lowercased extension. -/
theorem normalizeL_shape (l : List Char) :
    normalizeL l = [] ∨
    ∃ B E, normalizeL l = (if E = [] then B else B ++ '.' :: E) ∧
      (∀ c ∈ B, slugChar c = true) ∧
      noDoubleHyphen B = true ∧
      B.head? ≠ some '-' ∧
      '.' ∉ E ∧
      (∀ c ∈ E, charToLower c = [c]) ∧
      (∀ d, E.getLast? = some d → rustIsWhitespace d = false) := by
  by_cases hl : l = []
  · left
    rw [hl]
    rfl
  right
  refine ⟨normalize_base (split_extension (trimWs l)).1 defaultConfig,
    strLower (split_extension (trimWs l)).2, ?_, ?_, ?_, ?_, ?_, ?_, ?_⟩
  · rw [normalizeL_eq hl]
  · exact fun c hc => normalize_base_mem_slug hc
  · exact normalize_base_noDD _ _
  · intro hh
    exact normalize_base_head_ne_hyphen hh rfl
  · exact strLower_no_dot (split_extension_snd_no_dot _)
  · exact fun c hc => strLower_mem_fixed hc
  · intro d hd
    refine strLower_getLast_not_ws (fun c hc => ?_) hd
    have hne : (split_extension (trimWs l)).2 ≠ [] := by
      intro h0
      rw [h0, strLower_nil] at hd
      simp at hd
    rw [getLast?_suffix (split_extension_snd_suffix _) hne] at hc
    exact trimWs_getLast_not_ws hc

/-- A second `normalize` pass is the identity on every output satisfying
`stableName`. -/
theorem normalizeL_idem_of_stable (l : List Char)
    (hstab : stableName (normalizeL l)) :
    normalizeL (normalizeL l) = normalizeL l := by
  rcases normalizeL_shape l with ho | ⟨B, E, ho, hBslug, hBdd, hBh, hEnd, hEfix, hElw⟩
  · rw [ho]
    rfl
  rw [ho] at hstab ⊢
  by_cases hE : E = []
  · -- the output is just the base
    rw [if_pos hE] at hstab ⊢
    obtain ⟨hs1, hs2, hs3⟩ := hstab
    by_cases hB : B = []
    · rw [hB]
      rfl
    have htw : trimWs B = B :=
      trimWs_eq_self_of_all fun c hc => slug_not_ws (hBslug c hc)
    rw [normalizeL_eq hB, htw]
    cases hdot : lastDotIdx B with
    | none =>
      have hnd : '.' ∉ B := lastDotIdx_none_iff.mp hdot
      have hsplit : split_extension B = (B, []) := split_extension_of_none hdot
      simp only [hsplit, strLower_nil, if_true]
      exact normalize_base_fixed hBslug hBdd hBh
        (fun h => hnd (List.mem_of_mem_head? h))
        (fun h => hnd (List.mem_of_mem_getLast? h))
    | some i =>
      obtain ⟨hdec, hnd2⟩ := lastDotIdx_decomp hdot
      by_cases h0 : i = 0
      · subst h0
        have hBeq : '.' :: B.drop 1 = B := by simpa using hdec
        have hsplit : split_extension B = ([], B.drop 1) := by
          rw [split_extension_of_some hdot]
          simp
        simp only [hsplit]
        have hrest : B.drop 1 ≠ [] := by
          intro hx
          rw [hx] at hBeq
          rw [← hBeq] at hs3
          simp at hs3
        have hsl : strLower (B.drop 1) = B.drop 1 :=
          strLower_of_slug fun c hc => hBslug c (List.mem_of_mem_drop hc)
        rw [hsl, if_neg hrest, normalize_base_nil]
        simpa using hBeq
      · by_cases h1 : i = B.length - 1
        · exfalso
          have hib := lastDotIdx_bound hdot
          have hdrop : B.drop (i + 1) = [] := by
            rw [List.drop_eq_nil_iff]
            omega
          rw [hdrop] at hdec
          apply hs3
          rw [← hdec]
          exact List.getLast?_concat _
        · have hib := lastDotIdx_bound hdot
          have hsplit : split_extension B = (B.take i, B.drop (i + 1)) := by
            rw [split_extension_of_some hdot, if_neg h0, if_neg h1]
          simp only [hsplit]
          simp only [hsplit] at hs1 hs2
          have hdne : B.drop (i + 1) ≠ [] := by
            intro hx
            have := List.drop_eq_nil_iff.mp hx
            omega
          have hsl : strLower (B.drop (i + 1)) = B.drop (i + 1) :=
            strLower_of_slug fun c hc => hBslug c (List.mem_of_mem_drop hc)
          rw [hsl, if_neg hdne]
          rw [normalize_base_fixed
            (fun c hc => hBslug c (List.mem_of_mem_take hc))
            (noDD_take hBdd)
            (by rw [head?_take (by omega)]; exact hBh)
            hs1 hs2]
          exact hdec
  · -- the output is base ++ '.' :: extension
    rw [if_neg hE] at hstab ⊢
    obtain ⟨hs1, hs2, hs3⟩ := hstab
    have hone : B ++ '.' :: E ≠ [] := by simp
    have hhead_ws : ∀ c, (B ++ '.' :: E).head? = some c →
        rustIsWhitespace c = false := by
      intro c hc
      cases B with
      | nil =>
        simp at hc
        rw [← hc]
        decide
      | cons b bs =>
        simp at hc
        rw [← hc]
        exact slug_not_ws (hBslug b (by simp))
    have hlast_ws : ∀ c, (B ++ '.' :: E).getLast? = some c →
        rustIsWhitespace c = false := by
      intro c hc
      rw [List.getLast?_append] at hc
      cases E with
      | nil => exact absurd rfl hE
      | cons e es =>
        rw [List.getLast?_cons_cons] at hc
        cases hgE : (e :: es).getLast? with
        | none => simp [List.getLast?_eq_none_iff] at hgE
        | some d =>
          rw [hgE] at hc
          simp at hc
          rw [← hc]
          exact hElw d hgE
    have htw : trimWs (B ++ '.' :: E) = B ++ '.' :: E :=
      trimWs_eq_self hhead_ws hlast_ws
    rw [normalizeL_eq hone, htw]
    have hldot : lastDotIdx (B ++ '.' :: E) = some B.length :=
      lastDotIdx_append hEnd
    have hslE : strLower E = E := strLower_fixed_of hEfix
    by_cases hB0 : B = []
    · subst hB0
      simp only [List.nil_append] at hldot ⊢
      have hsplit : split_extension ('.' :: E) = ([], E) := by
        rw [split_extension_of_some hldot]
        simp
      simp only [hsplit]
      rw [hslE, if_neg hE, normalize_base_nil]
      rfl
    · have hlenne : ¬ B.length = 0 := fun hx => hB0 (List.length_eq_zero.mp hx)
      have hlen : ¬ B.length = (B ++ '.' :: E).length - 1 := by
        simp only [List.length_append, List.length_cons]
        have : E.length ≠ 0 := fun hx => hE (List.length_eq_zero.mp hx)
        omega
      have hsplit : split_extension (B ++ '.' :: E) = (B, E) := by
        rw [split_extension_of_some hldot, if_neg hlenne, if_neg hlen,
          List.take_left, drop_length_succ_append]
      simp only [hsplit]
      simp only [hsplit] at hs1 hs2
      rw [hslE, if_neg hE]
      rw [normalize_base_fixed hBslug hBdd hBh hs1 hs2]

/-! ## ASCII bound for slug characters -/

theorem slug_ascii {c : Char} (h : slugChar c = true) : c.toNat < 128 := by
  rw [slugChar] at h
  simp only [Bool.or_eq_true, beq_iff_eq] at h
  rcases h with ((((h | h) | h) | h) | h)
  · rw [Char.isLower] at h
    simp at h
    have h4 : c.val.toNat ≤ 122 := h.2
    rw [Char.toNat]
    omega
  · rw [Char.isDigit] at h
    simp at h
    have h4 : c.val.toNat ≤ 57 := h.2
    rw [Char.toNat]
    omega
  · subst h
    decide
  · subst h
    decide
  · subst h
    decide

/-! ## Branch lemmas for `process_file` -/

theorem process_file_not_found {fs : Fs} {path : RPath} {dry_run : Bool}
    (h : fs.pathExists path = false) :
    process_file fs path dry_run =
      (.error (.FileNotFound path "NoSuchFile"), fs, [.statCall path false]) := by
  rw [process_file]
  simp [h]

theorem process_file_no_fname {fs : Fs} {path : RPath} {dry_run : Bool}
    (hs : fs.pathExists path = true) (hf : path.fname = none) :
    process_file fs path dry_run =
      (.error (.FileNotFound path "invalid filename"), fs, [.statCall path true]) := by
  rw [process_file]
  simp [hs, hf]

theorem process_file_unchanged {fs : Fs} {path : RPath} {dry_run : Bool}
    {filename : String}
    (hs : fs.pathExists path = true) (hf : path.fname = some filename)
    (heq : filename = normalize filename) :
    process_file fs path dry_run = (.ok (), fs, [.statCall path true]) := by
  rw [process_file]
  simp [hs, hf, ← heq]

theorem process_file_dry {fs : Fs} {path : RPath} {filename : String}
    (hs : fs.pathExists path = true) (hf : path.fname = some filename)
    (hne : ¬ filename = normalize filename) :
    process_file fs path true = (.ok (), fs, [.statCall path true]) := by
  rw [process_file]
  simp [hs, hf, hne]

theorem process_file_case_only {fs : Fs} {path : RPath} {filename : String}
    (hs : fs.pathExists path = true) (hf : path.fname = some filename)
    (hne : ¬ filename = normalize filename)
    (hcase : strLowerStr filename = strLowerStr (normalize filename)) :
    process_file fs path false =
      ((rename_case_only fs path (path.setFileName (normalize filename)) filename).1,
       (rename_case_only fs path (path.setFileName (normalize filename)) filename).2.1,
       .statCall path true ::
         (rename_case_only fs path (path.setFileName (normalize filename)) filename).2.2) := by
  rw [process_file]
  simp [hs, hf, hne, hcase]

theorem process_file_regular {fs : Fs} {path : RPath} {filename : String}
    (hs : fs.pathExists path = true) (hf : path.fname = some filename)
    (hne : ¬ filename = normalize filename)
    (hcase : ¬ strLowerStr filename = strLowerStr (normalize filename))
    (htex : fs.pathExists (path.setFileName (normalize filename)) = false) :
    process_file fs path false =
      (match fs.rename path (path.setFileName (normalize filename)) with
       | .error e =>
         (.error (.RenameError path (path.setFileName (normalize filename)) e), fs,
          [.statCall path true,
           .existsCheck (path.setFileName (normalize filename)) false,
           .renameCall path (path.setFileName (normalize filename)) false])
       | .ok fs2 =>
         (.ok (), fs2,
          [.statCall path true,
           .existsCheck (path.setFileName (normalize filename)) false,
           .renameCall path (path.setFileName (normalize filename)) true])) := by
  rw [process_file]
  simp [hs, hf, hne, hcase, htex]

/-- All three branches of `rename_case_only` produce a trace of rename
calls only, and never a `TargetExists` error. -/
theorem rename_case_only_trace (fs : Fs) (source target : RPath)
    (old_name : String) :
    (∀ q r, FsOp.existsCheck q r ∉ (rename_case_only fs source target old_name).2.2) ∧
    (∀ q, (rename_case_only fs source target old_name).1 ≠
      .error (.TargetExists q)) := by
  rw [rename_case_only]
  cases h1 : fs.rename source (source.setFileName (old_name ++ ".fnorm-tmp")) with
  | error e => exact ⟨fun q r hm => by simp at hm, fun q h => by simp at h⟩
  | ok fs1 =>
    cases h2 : fs1.rename (source.setFileName (old_name ++ ".fnorm-tmp")) target with
    | ok fs2 =>
      simp only [h2]
      exact ⟨fun q r hm => by simp at hm, fun q h => by simp at h⟩
    | error e =>
      simp only [h2]
      cases h3 : fs1.rename (source.setFileName (old_name ++ ".fnorm-tmp")) source with
      | ok fs3 =>
        simp only [h3]
        exact ⟨fun q r hm => by simp at hm, fun q h => by simp at h⟩
      | error e2 =>
        simp only [h3]
        exact ⟨fun q r hm => by simp at hm, fun q h => by simp at h⟩

/-! ## `runAux` composition -/

theorem runAux_append (fs : Fs) (xs ys : List RPath) (dry_run : Bool) :
    runAux fs (xs ++ ys) dry_run =
      ((runAux fs xs dry_run).1 ++ (runAux (runAux fs xs dry_run).2.1 ys dry_run).1,
       (runAux (runAux fs xs dry_run).2.1 ys dry_run).2.1,
       (runAux fs xs dry_run).2.2 ++
         (runAux (runAux fs xs dry_run).2.1 ys dry_run).2.2) := by
  induction xs generalizing fs with
  | nil => simp [runAux]
  | cons x rest ih =>
    rw [List.cons_append, runAux, runAux]
    cases hx : (process_file fs x dry_run).1 with
    | ok u =>
      cases u
      simp only [ih]
      simp [List.append_assoc]
    | error e =>
      simp only [ih]
      simp [List.append_assoc]

/-! ## `runAux` cons step -/

theorem runAux_cons (fs : Fs) (p : RPath) (rest : List RPath) (dry_run : Bool) :
    runAux fs (p :: rest) dry_run =
      ((match (process_file fs p dry_run).1 with
        | .ok _ => []
        | .error e => [(p, e)]) ++
         (runAux (process_file fs p dry_run).2.1 rest dry_run).1,
       (runAux (process_file fs p dry_run).2.1 rest dry_run).2.1,
       (process_file fs p dry_run).2.2 ++
         (runAux (process_file fs p dry_run).2.1 rest dry_run).2.2) := by
  rw [runAux]
  cases hp : (process_file fs p dry_run).1 with
  | ok u =>
    cases u
    simp [hp]
  | error e => simp [hp]

/-! ## Auxiliary facts for all-hyphen names -/

theorem dropWhile_eq_nil_of_all {p : Char → Bool} {l : List Char}
    (h : ∀ c ∈ l, p c = true) : l.dropWhile p = [] := by
  induction l with
  | nil => rfl
  | cons a rest ih =>
    rw [List.dropWhile_cons_of_pos (h a (by simp))]
    exact ih fun c hc => h c (List.mem_cons_of_mem _ hc)

theorem trimWs_idem (l : List Char) : trimWs (trimWs l) = trimWs l :=
  trimWs_eq_self (fun _ hc => trimWs_head_not_ws hc)
    (fun _ hc => trimWs_getLast_not_ws hc)

/-! ## The claims -/

/-- C1, counterexample: on a case-sensitive filesystem holding both
`README.TXT` and `readme.txt`, the safe-rename operation on `README.TXT`
takes the case-only branch, succeeds without returning `TargetExists`, and
the pre-existing distinct entry `readme.txt` (content 2) is silently
replaced by the renamed file (content 1) — an existing entry other than
the input path is deleted. -/
theorem case_only_rename_overwrites_cex :
    (process_file fsCaseTwo ⟨"d", some "README.TXT"⟩ false).1 = .ok () ∧
    (process_file fsCaseTwo ⟨"d", some "README.TXT"⟩ false).2.1.entries =
      [(⟨"d", some "readme.txt"⟩, 1)] ∧
    (⟨"d", some "readme.txt"⟩, 2) ∈ fsCaseTwo.entries := by
  exact ⟨rfl, rfl, by decide⟩

/-- C1, amended: on the regular-rename branch (names differing by more
than case), whenever the computed target path already exists the operation
fails with `TargetExists`, mutates nothing, and issues no rename; the
case-only branch performs its two-step rename without this check and can
replace an existing entry. -/
theorem process_file_regular_branch_target_exists
    (fs : Fs) (path : RPath) (filename : String)
    (hf : path.fname = some filename)
    (hs : fs.pathExists path = true)
    (hne : ¬ filename = normalize filename)
    (hcase : ¬ strLowerStr filename = strLowerStr (normalize filename))
    (htex : fs.pathExists (path.setFileName (normalize filename)) = true) :
    process_file fs path false =
      (.error (.TargetExists (path.setFileName (normalize filename))), fs,
       [.statCall path true,
        .existsCheck (path.setFileName (normalize filename)) true]) := by
  rw [process_file]
  simp [hs, hf, hne, hcase, htex]

/-- C1, witness: `Source File.txt` alongside an existing
`source-file.txt` yields `TargetExists` and leaves the filesystem
untouched. -/
theorem process_file_regular_branch_target_exists_witness :
    process_file fsConflict ⟨"d", some "Source File.txt"⟩ false =
      (.error (.TargetExists ⟨"d", some "source-file.txt"⟩), fsConflict,
       [.statCall ⟨"d", some "Source File.txt"⟩ true,
        .existsCheck ⟨"d", some "source-file.txt"⟩ true]) := by
  exact process_file_regular_branch_target_exists fsConflict
    ⟨"d", some "Source File.txt"⟩ "Source File.txt" rfl (by decide) (by decide)
    (by decide) (by decide)

/-- C2, amended: `normalize` with the default configuration is idempotent
on every string whose normalized form is stable under re-splitting — the
base part seen by a second extension split neither starts nor ends with a
dot and the output does not end with a dot.  (On other outputs a second
pass can differ, see the counterexample.) -/
theorem normalize_idempotent_on_stable (s : String)
    (h : stableName (normalize s).data) :
    normalize (normalize s) = normalize s := by
  have hl := normalizeL_idem_of_stable s.data h
  exact congrArg String.mk hl

/-- C2, witness: idempotence holds at `My File.txt`. -/
theorem normalize_idempotent_on_stable_witness :
    stableName (normalize "My File.txt").data ∧
    normalize (normalize "My File.txt") = normalize "My File.txt" :=
  ⟨by decide, normalize_idempotent_on_stable "My File.txt" (by decide)⟩

/-- C2, counterexample: `normalize "a..b." = "a..b"` but
`normalize "a..b" = "a.b"` — the second pass splits the output at its last
dot, trims the dot now at the end of the base, and produces a different
string, so `normalize` is not idempotent. -/
theorem normalize_not_idempotent_cex :
    normalize "a..b." = "a..b" ∧
    normalize (normalize "a..b.") = "a.b" ∧
    normalize (normalize "a..b.") ≠ normalize "a..b." := by
  exact ⟨by decide, by decide, by decide⟩

/-- C3, amended: the base part of the output of `normalize` (everything
produced by `normalize_base`, i.e. the output up to the extension
separator) never contains two consecutive hyphens; the extension part is
copied verbatim apart from lowercasing and can retain consecutive
hyphens. -/
theorem normalize_base_part_no_double_hyphen (s : String) :
    noDoubleHyphen
      (normalize_base (split_extension (trimWs s.data)).1 defaultConfig) = true ∧
    (¬ s.data = [] → (normalize s).data =
      (if strLower (split_extension (trimWs s.data)).2 = []
       then normalize_base (split_extension (trimWs s.data)).1 defaultConfig
       else normalize_base (split_extension (trimWs s.data)).1 defaultConfig ++
         '.' :: strLower (split_extension (trimWs s.data)).2)) := by
  refine ⟨normalize_base_noDD _ _, fun h => ?_⟩
  show normalizeL s.data = _
  exact normalizeL_eq h

/-- C3, counterexample: `normalize "a.b--c"` keeps the two consecutive
hyphens that sit in the extension, because the extension is only
lowercased, never hyphen-collapsed. -/
theorem normalize_double_hyphen_cex :
    normalize "a.b--c" = "a.b--c" ∧
    noDoubleHyphen (normalize "a.b--c").data = false := by
  exact ⟨by decide, by decide⟩

/-- C4, amended: every character of the base part of the output of
`normalize` is ASCII; the extension part is only lowercased and keeps any
non-ASCII characters of the input extension. -/
theorem normalize_base_part_ascii (s : String) :
    (∀ c ∈ normalize_base (split_extension (trimWs s.data)).1 defaultConfig,
      c.toNat < 128) ∧
    (¬ s.data = [] → (normalize s).data =
      (if strLower (split_extension (trimWs s.data)).2 = []
       then normalize_base (split_extension (trimWs s.data)).1 defaultConfig
       else normalize_base (split_extension (trimWs s.data)).1 defaultConfig ++
         '.' :: strLower (split_extension (trimWs s.data)).2)) := by
  refine ⟨fun c hc => slug_ascii (normalize_base_mem_slug hc), fun h => ?_⟩
  show normalizeL s.data = _
  exact normalizeL_eq h

/-- C4, counterexample: `normalize "a.é" = "a.é"`, whose extension keeps
the non-ASCII character `é`, so the output of `normalize` is not always
ASCII-only. -/
theorem normalize_non_ascii_cex :
    normalize "a.é" = "a.é" ∧
    ¬ (∀ c ∈ (normalize "a.é").data, c.toNat < 128) := by
  exact ⟨by decide, by decide⟩

/-- C5, amended: with `dry_run = true` the safe-rename operation never
mutates the filesystem and issues no rename call, and it returns success
for every existing path that has a file-name component.  (An existing path
without one — such as the filesystem root — fails with `FileNotFound` even
under dry run, see the counterexample.) -/
theorem process_file_dry_run_no_mutation (fs : Fs) (path : RPath) :
    (process_file fs path true).2.1 = fs ∧
    noRenames (process_file fs path true).2.2 ∧
    (∀ filename, fs.pathExists path = true → path.fname = some filename →
      (process_file fs path true).1 = .ok ()) := by
  by_cases hs : fs.pathExists path = true
  · cases hf : path.fname with
    | none =>
      rw [process_file_no_fname hs hf]
      refine ⟨rfl, ?_, fun n _ hn => by simp [hf] at hn⟩
      intro s d k hm
      simp at hm
    | some filename =>
      by_cases heq : filename = normalize filename
      · rw [process_file_unchanged hs hf heq]
        refine ⟨rfl, ?_, fun _ _ _ => rfl⟩
        intro s d k hm
        simp at hm
      · rw [process_file_dry hs hf heq]
        refine ⟨rfl, ?_, fun _ _ _ => rfl⟩
        intro s d k hm
        simp at hm
  · have hs2 : fs.pathExists path = false := by
      cases hb : fs.pathExists path with
      | true => exact absurd hb hs
      | false => rfl
    rw [process_file_not_found hs2]
    refine ⟨rfl, ?_, fun n hn _ => absurd hn hs⟩
    intro s d k hm
    simp at hm

/-- C5, counterexample: the filesystem root exists, yet
`process_file` under dry run returns `FileNotFound` for it because the
path has no file-name component — dry run does not return success for
every existing path. -/
theorem dry_run_existing_root_errors_cex :
    fsRoot.pathExists ⟨"", none⟩ = true ∧
    (process_file fsRoot ⟨"", none⟩ true).1 =
      .error (.FileNotFound ⟨"", none⟩ "invalid filename") := by
  exact ⟨rfl, rfl⟩

/-- C6: the case-only two-step rename protocol.  If the first rename (to
the `.fnorm-tmp` temporary) fails, the filesystem is untouched and the
error is `RenameError{from: path, to: temp}`.  If the first succeeds and
the second fails, the component attempts to rename the temporary back to
the original path (the third rename call in the trace, best-effort:
failure of the recovery leaves the mid state) and reports
`RenameError{from: temp, to: target}`. -/
theorem rename_case_only_failure_protocol (fs : Fs) (source target : RPath)
    (old_name : String) :
    (∀ e, fs.rename source (source.setFileName (old_name ++ ".fnorm-tmp")) =
        .error e →
      rename_case_only fs source target old_name =
        (.error (.RenameError source
            (source.setFileName (old_name ++ ".fnorm-tmp")) e), fs,
         [.renameCall source (source.setFileName (old_name ++ ".fnorm-tmp"))
            false])) ∧
    (∀ fs1 e,
      fs.rename source (source.setFileName (old_name ++ ".fnorm-tmp")) = .ok fs1 →
      fs1.rename (source.setFileName (old_name ++ ".fnorm-tmp")) target =
        .error e →
      rename_case_only fs source target old_name =
        (.error (.RenameError (source.setFileName (old_name ++ ".fnorm-tmp"))
            target e),
         (match fs1.rename (source.setFileName (old_name ++ ".fnorm-tmp")) source
            with
          | .ok fs3 => fs3
          | .error _ => fs1),
         [.renameCall source (source.setFileName (old_name ++ ".fnorm-tmp")) true,
          .renameCall (source.setFileName (old_name ++ ".fnorm-tmp")) target false,
          .renameCall (source.setFileName (old_name ++ ".fnorm-tmp")) source
            (match fs1.rename (source.setFileName (old_name ++ ".fnorm-tmp"))
                source with
             | .ok _ => true
             | .error _ => false)])) := by
  constructor
  · intro e h1
    rw [rename_case_only]
    simp only [h1]
  · intro fs1 e h1 h2
    rw [rename_case_only]
    simp only [h1, h2]
    cases h3 : fs1.rename (source.setFileName (old_name ++ ".fnorm-tmp")) source
      with
    | ok fs3 => simp [h3]
    | error e2 => simp [h3]

/-- C6, witness: with the second rename failing (`EACCES`), the two-step
rename on `README.TXT` rolls the temporary back to the original name and
reports `RenameError{from: temp, to: target}`. -/
theorem rename_case_only_failure_protocol_witness :
    rename_case_only fsRollback ⟨"d", some "README.TXT"⟩
        ⟨"d", some "readme.txt"⟩ "README.TXT" =
      (.error (.RenameError ⟨"d", some "README.TXT.fnorm-tmp"⟩
          ⟨"d", some "readme.txt"⟩ "EACCES"),
       ⟨[(⟨"d", some "README.TXT"⟩, 1)], failIntoTargetOracle⟩,
       [.renameCall ⟨"d", some "README.TXT"⟩
          ⟨"d", some "README.TXT.fnorm-tmp"⟩ true,
        .renameCall ⟨"d", some "README.TXT.fnorm-tmp"⟩
          ⟨"d", some "readme.txt"⟩ false,
        .renameCall ⟨"d", some "README.TXT.fnorm-tmp"⟩
          ⟨"d", some "README.TXT"⟩ true]) := by
  exact (rename_case_only_failure_protocol fsRollback ⟨"d", some "README.TXT"⟩
    ⟨"d", some "readme.txt"⟩ "README.TXT").2
    ⟨[(⟨"d", some "README.TXT.fnorm-tmp"⟩, 1)], failIntoTargetOracle⟩
    "EACCES" rfl rfl

/-- C7: the extension splitter, characterized over all strings: the empty
string splits into `("", "")`; a name without a dot is all base with empty
extension; a name whose last dot is its first character splits into an
empty base and everything after the dot; a name whose last dot is final
has everything before that dot as base and an empty extension; otherwise
the name splits around its last dot. -/
theorem split_extension_cases (s pre post : List Char) :
    split_extension ([] : List Char) = ([], []) ∧
    ('.' ∉ s → split_extension s = (s, [])) ∧
    (s = pre ++ '.' :: post → '.' ∉ post →
      split_extension s =
        (if pre = [] then ([], post)
         else if post = [] then (pre, [])
         else (pre, post))) := by
  refine ⟨rfl, fun h => split_extension_of_none (lastDotIdx_none_iff.mpr h), ?_⟩
  intro heq hpost
  subst heq
  rw [split_extension_of_some (lastDotIdx_append hpost)]
  by_cases hpre : pre = []
  · subst hpre
    simp
  · rw [if_neg (fun h => hpre (List.length_eq_zero.mp h)), if_neg hpre]
    by_cases hpost0 : post = []
    · subst hpost0
      rw [if_pos (by simp), if_pos rfl, List.take_left]
    · rw [if_neg ?_, if_neg hpost0, List.take_left, drop_length_succ_append]
      have : post.length ≠ 0 := fun hx => hpost0 (List.length_eq_zero.mp hx)
      simp only [List.length_append, List.length_cons]
      omega

/-- C7, witness: the characterization applied at `archive.tar.gz`. -/
theorem split_extension_cases_witness :
    split_extension "archive.tar.gz".data = ("archive.tar".data, "gz".data) := by
  have h := (split_extension_cases "archive.tar.gz".data "archive.tar".data
    "gz".data).2.2 (by decide) (by decide)
  rw [h]
  decide

/-- C8: the batch driver processes every path even when some fail — its
error list is the errors before `p`, then at most one entry for `p`
(exactly one when `p`'s processing fails, carrying that path and its
error), then the errors of the remaining paths processed from the
resulting state; its trace likewise covers every path; and `run` returns
success iff no path failed, otherwise an error holding the collected
per-path entries. -/
theorem run_partial_failure (fs : Fs) (pre : List RPath) (p : RPath)
    (post : List RPath) (dry_run : Bool) :
    (runAux fs (pre ++ p :: post) dry_run).1 =
      (runAux fs pre dry_run).1 ++
      (match (process_file (runAux fs pre dry_run).2.1 p dry_run).1 with
       | .ok _ => []
       | .error e => [(p, e)]) ++
      (runAux (process_file (runAux fs pre dry_run).2.1 p dry_run).2.1 post
        dry_run).1 ∧
    (runAux fs (pre ++ p :: post) dry_run).2.2 =
      (runAux fs pre dry_run).2.2 ++
      (process_file (runAux fs pre dry_run).2.1 p dry_run).2.2 ++
      (runAux (process_file (runAux fs pre dry_run).2.1 p dry_run).2.1 post
        dry_run).2.2 ∧
    ((run fs (pre ++ p :: post) dry_run).1 = .ok () ↔
      (runAux fs (pre ++ p :: post) dry_run).1 = []) ∧
    ((runAux fs (pre ++ p :: post) dry_run).1 ≠ [] →
      (run fs (pre ++ p :: post) dry_run).1 =
        .error (runAux fs (pre ++ p :: post) dry_run).1) := by
  refine ⟨?_, ?_, ?_, ?_⟩
  · rw [runAux_append fs pre (p :: post) dry_run, runAux_cons]
    simp [List.append_assoc]
  · rw [runAux_append fs pre (p :: post) dry_run, runAux_cons]
    simp [List.append_assoc]
  · rw [run]
    by_cases h : (runAux fs (pre ++ p :: post) dry_run).1 = []
    · simp [h]
    · simp [h]
  · intro h
    rw [run]
    simp [h]

/-- C9: when the existing name and its normalization differ only by case,
`process_file` takes the case-only branch: its trace contains no existence
check at all (in particular none of the target), and the result is never
`TargetExists`. -/
theorem process_file_case_only_skips_exists_check
    (fs : Fs) (path : RPath) (filename : String)
    (hf : path.fname = some filename)
    (hs : fs.pathExists path = true)
    (hne : ¬ filename = normalize filename)
    (hcase : strLowerStr filename = strLowerStr (normalize filename)) :
    (∀ q r, FsOp.existsCheck q r ∉ (process_file fs path false).2.2) ∧
    (∀ q, (process_file fs path false).1 ≠ .error (.TargetExists q)) := by
  rw [process_file_case_only hs hf hne hcase]
  obtain ⟨h1, h2⟩ := rename_case_only_trace fs path
    (path.setFileName (normalize filename)) filename
  refine ⟨fun q r hm => ?_, fun q h => h2 q h⟩
  rcases List.mem_cons.mp hm with hm | hm
  · simp at hm
  · exact h1 q r hm

/-- C9, witness: renaming `README.TXT` (normalizing to `readme.txt`) goes
through the case-only branch with no existence check and no
`TargetExists`. -/
theorem process_file_case_only_skips_exists_check_witness :
    (∀ q r, FsOp.existsCheck q r ∉
      (process_file fsReadme ⟨"d", some "README.TXT"⟩ false).2.2) ∧
    (∀ q, (process_file fsReadme ⟨"d", some "README.TXT"⟩ false).1 ≠
      .error (.TargetExists q)) :=
  process_file_case_only_skips_exists_check fsReadme ⟨"d", some "README.TXT"⟩
    "README.TXT" rfl (by decide) (by decide) (by decide)

/-- C10: a name without extension whose characters all map to hyphens has
its base collapsed to hyphens and trimmed, and normalizes to the empty
string; in particular `normalize "!!!"` is `""` although `"!!!"` is
non-empty. -/
theorem normalize_maps_nonempty_to_empty :
    (∀ l : List Char, lastDotIdx (trimWs l) = none →
      (∀ d ∈ processChars defaultConfig (trimDots (trimWs l)), d = '-') →
      normalizeL l = []) ∧
    normalize "!!!" = "" ∧ ("!!!" : String) ≠ "" := by
  refine ⟨fun l hdot hall => ?_, by decide, by decide⟩
  by_cases hl : l = []
  · rw [hl]
    rfl
  rw [normalizeL_eq hl]
  have hsplit : split_extension (trimWs l) = (trimWs l, []) :=
    split_extension_of_none hdot
  simp only [hsplit, strLower_nil, if_true]
  rw [normalize_base, trimWs_idem]
  by_cases ht : trimDots (trimWs l) = []
  · rw [if_pos ht]
  · rw [if_neg ht]
    show List.dropWhile (fun c => c == '-')
      (cleanup_hyphens (processChars defaultConfig (trimDots (trimWs l)))) = []
    refine dropWhile_eq_nil_of_all fun c hc => ?_
    have := hall c (cleanupAux_mem hc)
    simp [this]

end Fnorm
